import Mathlib

/-!
Verification of the quotes/comments/users canister (Azle boilerplate).

The stateful TypeScript canister is shallowly embedded: each
`StableBTreeMap` becomes an association list binding each key once (the
map's `values()` enumerates records in a fixed deterministic order), each
update operation becomes a pure function from an explicit `State` to a
result/state pair, and the nondeterministic inputs `uuidv4()` and
`ic.time()` become explicit parameters of the operations that use them.
-/

deriving instance DecidableEq for Except

namespace QuotesApp

/-- Record type for quotes stored by the canister. -/
structure Quote where
  id : String
  authorId : String
  author : String
  quote : String
  created : Nat
  lastUpdate : Option Nat
deriving DecidableEq

/-- Record type for comments stored by the canister. -/
structure Comment where
  id : String
  authorId : String
  authorName : String
  quoteId : String
  comment : String
  created : Nat
  lastUpdate : Option Nat
deriving DecidableEq

/-- Record type for users stored by the canister. -/
structure User where
  id : String
  name : String
  pinCode : String
  created : Nat
  lastUpdate : Option Nat
deriving DecidableEq

/-- Payload for `newUser` and `getMyUserData`. -/
structure NewUserPayload where
  name : String
  pinCode : String
deriving DecidableEq

/-- Payload for `newQuote`. -/
structure NewQuotePayload where
  authorId : String
  quote : String
deriving DecidableEq

/-- Payload for `addComment`. -/
structure NewCommentPayload where
  authorId : String
  quoteId : String
  comment : String
deriving DecidableEq

/-- Projection of a quote returned by `getAllQuotes`. -/
structure QuoteToDisplay where
  id : String
  quote : String
  author : String
deriving DecidableEq

/-- Projection of a comment returned by `getQuoteComments`. -/
structure CommentsToDisplay where
  comment : String
  author : String
deriving DecidableEq

/-- A `StableBTreeMap` is modelled as an association list. -/
abbrev Store (α : Type) := List (String × α)

variable {α : Type}

/-- The map's `values()`: the stored records in enumeration order. -/
def storeValues (st : Store α) : List α := st.map Prod.snd

/-- The map's `insert(k, v)`: replaces the binding at `k` if present,
otherwise appends the new binding. (The map enumerates in a fixed
deterministic order; insertion order is used here.) -/
def storeInsert (k : String) (v : α) : Store α → Store α
  | [] => [(k, v)]
  | (k2, v2) :: rest =>
    if k = k2 then (k, v) :: rest
    else (k2, v2) :: storeInsert k v rest

/-- The map's `remove(k)`: returns the removed value (if any) and the
remaining store. -/
def storeRemove (k : String) : Store α → Option α × Store α
  | [] => (none, [])
  | (k2, v2) :: rest =>
    if k = k2 then (some v2, rest)
    else
      let r := storeRemove k rest
      (r.1, (k2, v2) :: r.2)

/-- The map's `get(k)`, used as the specification-side observation. -/
def storeFind (k : String) : Store α → Option α
  | [] => none
  | (k2, v2) :: rest => if k = k2 then some v2 else storeFind k rest

/-- Canister state: the three stable maps. -/
structure State where
  quoteStorage : Store Quote
  userStorage : Store User
  commentStorage : Store Comment
deriving DecidableEq

/-- State of a freshly deployed canister: all three maps empty. -/
def initState : State := ⟨[], [], []⟩

/-- Input validation for `newUser` (empty strings are falsy in JS). -/
def validateUserInput (payload : NewUserPayload) : Except String Unit :=
  if payload.name = "" ∨ payload.pinCode = "" then
    Except.error "Invalid input: name and pinCode are required."
  else Except.ok ()

/-- Reference validation for `newQuote`: the author must exist. -/
def validateQuoteInput (newUserQuote : NewQuotePayload) (allUsers : List User) :
    Except String Unit :=
  match allUsers.find? (fun u => u.id == newUserQuote.authorId) with
  | none => Except.error "Author with given ID not found."
  | some _ => Except.ok ()

/-- Reference validation for `addComment`: only the author is checked. -/
def validateCommentInput (newComment : NewCommentPayload) (allUsers : List User) :
    Except String Unit :=
  match allUsers.find? (fun u => u.id == newComment.authorId) with
  | none => Except.error "Author with given ID not found."
  | some _ => Except.ok ()

/-- Query `getAllQuotes`: an empty store is an error, otherwise the
`QuoteToDisplay` projection of every stored quote. -/
def getAllQuotes (s : State) : Except String (List QuoteToDisplay) :=
  let allQuotes := storeValues s.quoteStorage
  if allQuotes.length = 0 then Except.error "At the moment there is no quote..."
  else
    Except.ok (allQuotes.map (fun q => { id := q.id, quote := q.quote, author := q.author }))

/-- Query `getQuoteComments`: quote existence is checked first, then
comment emptiness. -/
def getQuoteComments (quoteId : String) (s : State) :
    Except String (List CommentsToDisplay) :=
  let allQuotes := storeValues s.quoteStorage
  match allQuotes.find? (fun q => q.id == quoteId) with
  | none => Except.error "No quote found with the given ID."
  | some _ =>
    let allComments := storeValues s.commentStorage
    let quoteComments := allComments.filter (fun c => c.quoteId == quoteId)
    if quoteComments.length = 0 then Except.error "No comments found for this quote."
    else
      Except.ok (quoteComments.map (fun c => { comment := c.comment, author := c.authorName }))

/-- Query `getMyUserData`: first user matching both name and pinCode. -/
def getMyUserData (payload : NewUserPayload) (s : State) : Except String User :=
  let allUsers := storeValues s.userStorage
  match allUsers.find? (fun u => u.name == payload.name && u.pinCode == payload.pinCode) with
  | none => Except.error "No user found with these credentials"
  | some userData => Except.ok userData

/-- Update `newUser`: validates input, rejects duplicate names, then inserts
the new user under the composite key `id ++ pinCode`. -/
def newUser (fid : String) (now : Nat) (payload : NewUserPayload) (s : State) :
    Except String User × State :=
  match validateUserInput payload with
  | Except.error e => (Except.error e, s)
  | Except.ok _ =>
    let allUsers := storeValues s.userStorage
    match allUsers.find? (fun u => u.name == payload.name) with
    | some _ => (Except.error "Sorry, this name is already in use...", s)
    | none =>
      let user : User :=
        { id := fid, name := payload.name, pinCode := payload.pinCode,
          created := now, lastUpdate := none }
      (Except.ok user,
        { s with userStorage := storeInsert (user.id ++ user.pinCode) user s.userStorage })

/-- Update `newQuote`: resolves the author, denormalizes the author's name,
inserts the quote under its id. -/
def newQuote (fid : String) (now : Nat) (newUserQuote : NewQuotePayload) (s : State) :
    Except String Quote × State :=
  let allUsers := storeValues s.userStorage
  match validateQuoteInput newUserQuote allUsers with
  | Except.error e => (Except.error e, s)
  | Except.ok _ =>
    match allUsers.find? (fun u => u.id == newUserQuote.authorId) with
    | none => (Except.error "Author with given ID not found.", s)
    | some userThatComments =>
      let quote : Quote :=
        { id := fid, authorId := newUserQuote.authorId, author := userThatComments.name,
          quote := newUserQuote.quote, created := now, lastUpdate := none }
      (Except.ok quote, { s with quoteStorage := storeInsert quote.id quote s.quoteStorage })

/-- Update `addComment`: resolves the author (the quote id is NOT checked),
inserts the comment under its id. -/
def addComment (fid : String) (now : Nat) (newComment : NewCommentPayload) (s : State) :
    Except String Comment × State :=
  let allUsers := storeValues s.userStorage
  match validateCommentInput newComment allUsers with
  | Except.error e => (Except.error e, s)
  | Except.ok _ =>
    match allUsers.find? (fun u => u.id == newComment.authorId) with
    | none => (Except.error "Author with given ID not found.", s)
    | some userThatComments =>
      let commentToAdd : Comment :=
        { id := fid, authorId := newComment.authorId, authorName := userThatComments.name,
          quoteId := newComment.quoteId, comment := newComment.comment,
          created := now, lastUpdate := none }
      (Except.ok commentToAdd,
        { s with commentStorage := storeInsert commentToAdd.id commentToAdd s.commentStorage })

/-- Update `deleteComment`: removes the record by id first, then validates
the quote id and the author id against the removed record. -/
def deleteComment (quoteId commentId authorId : String) (s : State) :
    Except String Comment × State :=
  let r := storeRemove commentId s.commentStorage
  let s1 : State := { s with commentStorage := r.2 }
  match r.1 with
  | some commentToDelete =>
    if commentToDelete.quoteId ≠ quoteId then
      (Except.error "This comment is not on the given quote.", s1)
    else if commentToDelete.authorId ≠ authorId then
      (Except.error "Unable to delete the comment, you are not the author.", s1)
    else (Except.ok commentToDelete, s1)
  | none => (Except.error "Comment with given Id not found.", s1)

/-- Update `deleteQuote`: ownership check, removal, then best-effort cascade
deletion of the quote's comments. -/
def deleteQuote (quoteId authorId : String) (s : State) :
    Except String Quote × State :=
  let allQuotes := storeValues s.quoteStorage
  match allQuotes.find? (fun q => q.id == quoteId && q.authorId == authorId) with
  | none => (Except.error "You cannot delete the quote because you are not the owner.", s)
  | some _ =>
    let r := storeRemove quoteId s.quoteStorage
    let s1 : State := { s with quoteStorage := r.2 }
    match r.1 with
    | some deletedQuote =>
      let commentsToDelete := (storeValues s1.commentStorage).filter (fun c => c.quoteId == quoteId)
      let s2 : State :=
        if commentsToDelete.length ≠ 0 then
          commentsToDelete.foldl (fun acc c => (deleteComment quoteId c.id authorId acc).2) s1
        else s1
      (Except.ok deletedQuote, s2)
    | none => (Except.error "Quote with given Id not found.", s1)

/-- Update `deleteUser`: credential check, removal at the composite key,
then best-effort cascade deletion of the user's quotes. -/
def deleteUser (userId pinCode : String) (s : State) :
    Except String User × State :=
  let allUsers := storeValues s.userStorage
  match allUsers.find? (fun u => u.id == userId) with
  | none => (Except.error "Unable to delete user, wrong credentials.", s)
  | some userById =>
    if userById.pinCode ≠ pinCode then
      (Except.error "Unable to delete user, wrong credentials.", s)
    else
      let r := storeRemove (userId ++ pinCode) s.userStorage
      let s1 : State := { s with userStorage := r.2 }
      match r.1 with
      | some userToDelete =>
        let userQuotes := (storeValues s1.quoteStorage).filter (fun q => q.authorId == userId)
        let s2 : State :=
          if userQuotes.length ≠ 0 then
            userQuotes.foldl (fun acc q => (deleteQuote q.id userId acc).2) s1
          else s1
        (Except.ok userToDelete, s2)
      | none => (Except.error "No user found with those credentials.", s1)

/-- One externally visible update call (queries do not change state). The
fresh uuid and the timestamp of each call are arbitrary. -/
inductive Step : State → State → Prop where
  | stepNewUser (fid : String) (now : Nat) (p : NewUserPayload) (s : State) :
      Step s (newUser fid now p s).2
  | stepNewQuote (fid : String) (now : Nat) (p : NewQuotePayload) (s : State) :
      Step s (newQuote fid now p s).2
  | stepAddComment (fid : String) (now : Nat) (p : NewCommentPayload) (s : State) :
      Step s (addComment fid now p s).2
  | stepDeleteQuote (quoteId authorId : String) (s : State) :
      Step s (deleteQuote quoteId authorId s).2
  | stepDeleteComment (quoteId commentId authorId : String) (s : State) :
      Step s (deleteComment quoteId commentId authorId s).2
  | stepDeleteUser (userId pinCode : String) (s : State) :
      Step s (deleteUser userId pinCode s).2

/-- States reachable from a fresh deployment by update calls. -/
inductive Reachable : State → Prop where
  | init : Reachable initState
  | step {s s' : State} : Reachable s → Step s s' → Reachable s'

/-- Keys of a store are pairwise distinct (a map binds each key once). -/
@[reducible] def keysNodup (st : Store α) : Prop := st.Pairwise (fun a b => a.1 ≠ b.1)

theorem keysNodup.sublist {st st' : Store α} (hs : st'.Sublist st) (h : keysNodup st) :
    keysNodup st' := List.Pairwise.sublist hs h

theorem storeRemove_fst (k : String) (st : Store α) :
    (storeRemove k st).1 = storeFind k st := by
  induction st with
  | nil => rfl
  | cons e rest ih =>
    obtain ⟨k2, v2⟩ := e
    simp only [storeRemove, storeFind]
    by_cases h : k = k2 <;> simp [h, ih]

theorem storeRemove_sublist (k : String) (st : Store α) :
    (storeRemove k st).2.Sublist st := by
  induction st with
  | nil => simp [storeRemove]
  | cons e rest ih =>
    obtain ⟨k2, v2⟩ := e
    simp only [storeRemove]
    by_cases h : k = k2
    · simp [h]
    · simpa [h] using ih.cons₂ (k2, v2)

theorem storeFind_storeRemove_ne {k k' : String} (h : k' ≠ k) (st : Store α) :
    storeFind k' (storeRemove k st).2 = storeFind k' st := by
  induction st with
  | nil => rfl
  | cons e rest ih =>
    obtain ⟨k2, v2⟩ := e
    simp only [storeRemove, storeFind]
    by_cases h2 : k = k2
    · subst h2
      simp [h]
    · by_cases h3 : k' = k2 <;> simp [h2, h3, storeFind, ih]

theorem storeFind_eq_none_iff {k : String} {st : Store α} :
    storeFind k st = none ↔ ∀ e ∈ st, e.1 ≠ k := by
  induction st with
  | nil => simp [storeFind]
  | cons e rest ih =>
    obtain ⟨k2, v2⟩ := e
    by_cases h : k = k2
    · subst h
      simp [storeFind]
    · simp [storeFind, h, ih, Ne.symm h]

theorem storeFind_storeRemove_self {k : String} {st : Store α} (h : keysNodup st) :
    storeFind k (storeRemove k st).2 = none := by
  induction st with
  | nil => rfl
  | cons e rest ih =>
    obtain ⟨k2, v2⟩ := e
    rw [keysNodup, List.pairwise_cons] at h
    simp only [storeRemove]
    by_cases h2 : k = k2
    · subst h2
      simp only [if_pos rfl]
      exact storeFind_eq_none_iff.mpr (fun e he => Ne.symm (h.1 e he))
    · simpa [h2, storeFind, h2] using ih h.2

theorem storeFind_of_mem {k : String} {v : α} {st : Store α} (h : keysNodup st)
    (hm : (k, v) ∈ st) : storeFind k st = some v := by
  induction st with
  | nil => simp at hm
  | cons e rest ih =>
    obtain ⟨k2, v2⟩ := e
    rw [keysNodup, List.pairwise_cons] at h
    rcases List.mem_cons.mp hm with h1 | h1
    · rw [Prod.mk.injEq] at h1
      obtain ⟨h1a, h1b⟩ := h1
      subst h1a
      subst h1b
      simp [storeFind]
    · have hne : k ≠ k2 := fun hk => (h.1 _ h1) (by simpa using hk.symm)
      simp [storeFind, hne, ih h.2 h1]

theorem storeFind_some_mem {k : String} {v : α} {st : Store α}
    (h : storeFind k st = some v) : (k, v) ∈ st := by
  induction st with
  | nil => simp [storeFind] at h
  | cons e rest ih =>
    obtain ⟨k2, v2⟩ := e
    by_cases h2 : k = k2
    · subst h2
      simp [storeFind] at h
      subst h
      exact List.mem_cons_self _ _
    · simp only [storeFind, if_neg h2] at h
      exact List.mem_cons_of_mem _ (ih h)

theorem mem_storeInsert {k : String} {v : α} {x : String × α} {st : Store α}
    (h : x ∈ storeInsert k v st) : x = (k, v) ∨ x ∈ st := by
  induction st with
  | nil => simpa [storeInsert] using h
  | cons e rest ih =>
    obtain ⟨k2, v2⟩ := e
    simp only [storeInsert] at h
    by_cases h2 : k = k2
    · rw [if_pos h2] at h
      rcases List.mem_cons.mp h with h3 | h3
      · exact Or.inl h3
      · exact Or.inr (List.mem_cons_of_mem _ h3)
    · rw [if_neg h2] at h
      rcases List.mem_cons.mp h with h3 | h3
      · exact Or.inr (h3 ▸ List.mem_cons_self _ _)
      · rcases ih h3 with h4 | h4
        · exact Or.inl h4
        · exact Or.inr (List.mem_cons_of_mem _ h4)

theorem keysNodup_storeInsert {k : String} {v : α} {st : Store α} (h : keysNodup st) :
    keysNodup (storeInsert k v st) := by
  induction st with
  | nil => simp [storeInsert, keysNodup]
  | cons e rest ih =>
    obtain ⟨k2, v2⟩ := e
    rw [keysNodup, List.pairwise_cons] at h
    simp only [storeInsert]
    by_cases h2 : k = k2
    · rw [if_pos h2]
      rw [keysNodup, List.pairwise_cons]
      exact ⟨fun e he => h2 ▸ h.1 e he, h.2⟩
    · rw [if_neg h2]
      rw [keysNodup, List.pairwise_cons]
      constructor
      · intro e he
        rcases mem_storeInsert he with h3 | h3
        · exact h3 ▸ Ne.symm h2
        · exact h.1 e h3
      · exact ih h.2

theorem mem_storeValues {v : α} {st : Store α} :
    v ∈ storeValues st ↔ ∃ k, (k, v) ∈ st := by
  simp only [storeValues, List.mem_map]
  constructor
  · rintro ⟨⟨k, v2⟩, hm, rfl⟩
    exact ⟨k, hm⟩
  · rintro ⟨k, hm⟩
    exact ⟨(k, v), hm, rfl⟩

theorem mem_storeValues_insert {k : String} {v x : α} {st : Store α}
    (h : x ∈ storeValues (storeInsert k v st)) : x = v ∨ x ∈ storeValues st := by
  rcases mem_storeValues.mp h with ⟨k2, hm⟩
  rcases mem_storeInsert hm with h1 | h1
  · exact Or.inl (congrArg Prod.snd h1)
  · exact Or.inr (mem_storeValues.mpr ⟨k2, h1⟩)

theorem storeRemove_none_eq {k : String} {st : Store α}
    (h : storeFind k st = none) : (storeRemove k st).2 = st := by
  induction st with
  | nil => rfl
  | cons e rest ih =>
    obtain ⟨k2, v2⟩ := e
    by_cases h2 : k = k2
    · subst h2
      simp [storeFind] at h
    · simp only [storeFind, if_neg h2] at h
      simp [storeRemove, h2, ih h]

theorem find?_values_insert {p : α → Bool} {k : String} {v : α} {st : Store α}
    (hold : ∀ x ∈ storeValues st, p x = false) (hv : p v = true) :
    (storeValues (storeInsert k v st)).find? p = some v := by
  induction st with
  | nil => simp [storeInsert, storeValues, hv]
  | cons e rest ih =>
    obtain ⟨k2, v2⟩ := e
    have hv2 : p v2 = false := hold v2 (by simp [storeValues])
    have hrest : ∀ x ∈ storeValues rest, p x = false := fun x hx =>
      hold x (by simp only [storeValues, List.map_cons]; exact List.mem_cons_of_mem _ hx)
    simp only [storeInsert]
    by_cases h2 : k = k2
    · simp [h2, storeValues, List.find?_cons_of_pos, hv]
    · simp only [if_neg h2, storeValues, List.map_cons]
      rw [List.find?_cons_of_neg _ (by simp [hv2])]
      exact ih hrest

theorem pairwise_values_insert {R : α → α → Prop} {k : String} {v : α} {st : Store α}
    (hold : ∀ x ∈ storeValues st, R v x ∧ R x v)
    (hp : (storeValues st).Pairwise R) :
    (storeValues (storeInsert k v st)).Pairwise R := by
  induction st with
  | nil => simp [storeInsert, storeValues]
  | cons e rest ih =>
    obtain ⟨k2, v2⟩ := e
    have hold2 : R v v2 ∧ R v2 v := hold v2 (by simp [storeValues])
    have holdrest : ∀ x ∈ storeValues rest, R v x ∧ R x v := fun x hx =>
      hold x (by simp only [storeValues, List.map_cons]; exact List.mem_cons_of_mem _ hx)
    simp only [storeValues, List.map_cons] at hp ⊢
    rw [List.pairwise_cons] at hp
    simp only [storeInsert]
    by_cases h2 : k = k2
    · rw [if_pos h2]
      simp only [List.map_cons]
      rw [List.pairwise_cons]
      exact ⟨fun x hx => (holdrest x hx).1, hp.2⟩
    · rw [if_neg h2]
      simp only [List.map_cons]
      rw [List.pairwise_cons]
      constructor
      · intro x hx
        rcases mem_storeValues_insert (by simpa [storeValues] using hx) with h3 | h3
        · exact h3 ▸ hold2.2
        · exact hp.1 x h3
      · exact ih holdrest hp.2

/-- Well-formedness invariant of the canister state: stores are sorted, each
record sits under its canonical key (`id` for quotes and comments, the
composite `id ++ pinCode` for users), and user names are pairwise distinct. -/
@[reducible] def Inv (s : State) : Prop :=
  keysNodup s.quoteStorage ∧ keysNodup s.userStorage ∧ keysNodup s.commentStorage ∧
  (∀ e ∈ s.quoteStorage, e.1 = e.2.id) ∧
  (∀ e ∈ s.userStorage, e.1 = e.2.id ++ e.2.pinCode) ∧
  (∀ e ∈ s.commentStorage, e.1 = e.2.id) ∧
  (storeValues s.userStorage).Pairwise (fun u v => u.name ≠ v.name)

theorem inv_of_sublists {s s' : State} (h : Inv s)
    (hq : s'.quoteStorage.Sublist s.quoteStorage)
    (hu : s'.userStorage.Sublist s.userStorage)
    (hc : s'.commentStorage.Sublist s.commentStorage) : Inv s' := by
  obtain ⟨h1, h2, h3, h4, h5, h6, h7⟩ := h
  refine ⟨h1.sublist hq, h2.sublist hu, h3.sublist hc,
    fun e he => h4 e (hq.subset he), fun e he => h5 e (hu.subset he),
    fun e he => h6 e (hc.subset he), ?_⟩
  exact h7.sublist (hu.map Prod.snd)

theorem deleteComment_state (quoteId commentId authorId : String) (s : State) :
    (deleteComment quoteId commentId authorId s).2 =
      { s with commentStorage := (storeRemove commentId s.commentStorage).2 } := by
  simp only [deleteComment]
  cases h : (storeRemove commentId s.commentStorage).1 with
  | none => rfl
  | some c =>
    simp only []
    split
    · rfl
    · split <;> rfl

theorem foldl_deleteComment_state (quoteId authorId : String) (M : List Comment) (st : State) :
    (M.foldl (fun acc c => (deleteComment quoteId c.id authorId acc).2) st).quoteStorage
        = st.quoteStorage ∧
    (M.foldl (fun acc c => (deleteComment quoteId c.id authorId acc).2) st).userStorage
        = st.userStorage ∧
    ((M.foldl (fun acc c => (deleteComment quoteId c.id authorId acc).2) st).commentStorage).Sublist
        st.commentStorage := by
  induction M generalizing st with
  | nil => exact ⟨rfl, rfl, List.Sublist.refl _⟩
  | cons c M ih =>
    simp only [List.foldl_cons]
    obtain ⟨e1, e2, e3⟩ := ih ((deleteComment quoteId c.id authorId st).2)
    refine ⟨?_, ?_, ?_⟩
    · rw [e1, deleteComment_state]
    · rw [e2, deleteComment_state]
    · refine e3.trans ?_
      rw [deleteComment_state]
      exact storeRemove_sublist _ _

theorem deleteQuote_state (quoteId authorId : String) (s : State) :
    (deleteQuote quoteId authorId s).2.userStorage = s.userStorage ∧
    ((deleteQuote quoteId authorId s).2.quoteStorage).Sublist s.quoteStorage ∧
    ((deleteQuote quoteId authorId s).2.commentStorage).Sublist s.commentStorage := by
  simp only [deleteQuote]
  cases hf : (storeValues s.quoteStorage).find?
      (fun q => q.id == quoteId && q.authorId == authorId) with
  | none => exact ⟨rfl, List.Sublist.refl _, List.Sublist.refl _⟩
  | some q0 =>
    simp only []
    cases hr : (storeRemove quoteId s.quoteStorage).1 with
    | none => exact ⟨rfl, storeRemove_sublist _ _, List.Sublist.refl _⟩
    | some dq =>
      simp only []
      split
      · obtain ⟨e1, e2, e3⟩ := foldl_deleteComment_state quoteId authorId
          ((storeValues s.commentStorage).filter (fun c => c.quoteId == quoteId))
          { s with quoteStorage := (storeRemove quoteId s.quoteStorage).2 }
        exact ⟨e2, e1 ▸ storeRemove_sublist _ _, e3⟩
      · exact ⟨rfl, storeRemove_sublist _ _, List.Sublist.refl _⟩

theorem foldl_deleteQuote_state (userId : String) (L : List Quote) (st : State) :
    (L.foldl (fun acc q => (deleteQuote q.id userId acc).2) st).userStorage
        = st.userStorage ∧
    ((L.foldl (fun acc q => (deleteQuote q.id userId acc).2) st).quoteStorage).Sublist
        st.quoteStorage ∧
    ((L.foldl (fun acc q => (deleteQuote q.id userId acc).2) st).commentStorage).Sublist
        st.commentStorage := by
  induction L generalizing st with
  | nil => exact ⟨rfl, List.Sublist.refl _, List.Sublist.refl _⟩
  | cons q L ih =>
    simp only [List.foldl_cons]
    obtain ⟨e1, e2, e3⟩ := ih ((deleteQuote q.id userId st).2)
    obtain ⟨d1, d2, d3⟩ := deleteQuote_state q.id userId st
    exact ⟨e1.trans d1, e2.trans d2, e3.trans d3⟩

theorem deleteUser_state (userId pinCode : String) (s : State) :
    ((deleteUser userId pinCode s).2.userStorage).Sublist s.userStorage ∧
    ((deleteUser userId pinCode s).2.quoteStorage).Sublist s.quoteStorage ∧
    ((deleteUser userId pinCode s).2.commentStorage).Sublist s.commentStorage := by
  simp only [deleteUser]
  cases hf : (storeValues s.userStorage).find? (fun u => u.id == userId) with
  | none => exact ⟨List.Sublist.refl _, List.Sublist.refl _, List.Sublist.refl _⟩
  | some userById =>
    simp only []
    split
    · exact ⟨List.Sublist.refl _, List.Sublist.refl _, List.Sublist.refl _⟩
    · cases hr : (storeRemove (userId ++ pinCode) s.userStorage).1 with
      | none => exact ⟨storeRemove_sublist _ _, List.Sublist.refl _, List.Sublist.refl _⟩
      | some userToDelete =>
        simp only []
        split
        · obtain ⟨e1, e2, e3⟩ := foldl_deleteQuote_state userId
            ((storeValues s.quoteStorage).filter (fun q => q.authorId == userId))
            { s with userStorage := (storeRemove (userId ++ pinCode) s.userStorage).2 }
          exact ⟨e1 ▸ storeRemove_sublist _ _, e2, e3⟩
        · exact ⟨storeRemove_sublist _ _, List.Sublist.refl _, List.Sublist.refl _⟩

theorem newUser_inv {s : State} (h : Inv s) (fid : String) (now : Nat) (p : NewUserPayload) :
    Inv (newUser fid now p s).2 := by
  simp only [newUser]
  cases hv : validateUserInput p with
  | error e => exact h
  | ok u =>
    cases hf : (storeValues s.userStorage).find? (fun x => x.name == p.name) with
    | some x => exact h
    | none =>
      obtain ⟨h1, h2, h3, h4, h5, h6, h7⟩ := h
      have hold : ∀ x ∈ storeValues s.userStorage, x.name ≠ p.name := by
        intro x hx
        have h9 := List.find?_eq_none.mp hf x hx
        simpa using h9
      refine ⟨h1, keysNodup_storeInsert h2, h3, h4, ?_, h6, ?_⟩
      · intro e he
        rcases mem_storeInsert he with h8 | h8
        · subst h8
          rfl
        · exact h5 e h8
      · refine pairwise_values_insert ?_ h7
        intro x hx
        exact ⟨Ne.symm (hold x hx), hold x hx⟩

theorem newQuote_inv {s : State} (h : Inv s) (fid : String) (now : Nat) (p : NewQuotePayload) :
    Inv (newQuote fid now p s).2 := by
  simp only [newQuote]
  cases hv : validateQuoteInput p (storeValues s.userStorage) with
  | error e => exact h
  | ok u =>
    cases hf : (storeValues s.userStorage).find? (fun x => x.id == p.authorId) with
    | none => exact h
    | some userThatComments =>
      obtain ⟨h1, h2, h3, h4, h5, h6, h7⟩ := h
      refine ⟨keysNodup_storeInsert h1, h2, h3, ?_, h5, h6, h7⟩
      intro e he
      rcases mem_storeInsert he with h8 | h8
      · subst h8
        rfl
      · exact h4 e h8

theorem addComment_inv {s : State} (h : Inv s) (fid : String) (now : Nat)
    (p : NewCommentPayload) : Inv (addComment fid now p s).2 := by
  simp only [addComment]
  cases hv : validateCommentInput p (storeValues s.userStorage) with
  | error e => exact h
  | ok u =>
    cases hf : (storeValues s.userStorage).find? (fun x => x.id == p.authorId) with
    | none => exact h
    | some userThatComments =>
      obtain ⟨h1, h2, h3, h4, h5, h6, h7⟩ := h
      refine ⟨h1, h2, keysNodup_storeInsert h3, h4, h5, ?_, h7⟩
      intro e he
      rcases mem_storeInsert he with h8 | h8
      · subst h8
        rfl
      · exact h6 e h8

theorem deleteComment_inv {s : State} (h : Inv s) (quoteId commentId authorId : String) :
    Inv (deleteComment quoteId commentId authorId s).2 := by
  rw [deleteComment_state]
  exact inv_of_sublists h (List.Sublist.refl _) (List.Sublist.refl _) (storeRemove_sublist _ _)

theorem deleteQuote_inv {s : State} (h : Inv s) (quoteId authorId : String) :
    Inv (deleteQuote quoteId authorId s).2 := by
  obtain ⟨e1, e2, e3⟩ := deleteQuote_state quoteId authorId s
  refine inv_of_sublists h e2 ?_ e3
  rw [e1]

theorem deleteUser_inv {s : State} (h : Inv s) (userId pinCode : String) :
    Inv (deleteUser userId pinCode s).2 := by
  obtain ⟨e1, e2, e3⟩ := deleteUser_state userId pinCode s
  exact inv_of_sublists h e2 e1 e3

theorem step_inv {s s' : State} (h : Inv s) (hs : Step s s') : Inv s' := by
  cases hs with
  | stepNewUser fid now p _ => exact newUser_inv h fid now p
  | stepNewQuote fid now p _ => exact newQuote_inv h fid now p
  | stepAddComment fid now p _ => exact addComment_inv h fid now p
  | stepDeleteQuote quoteId authorId _ => exact deleteQuote_inv h quoteId authorId
  | stepDeleteComment quoteId commentId authorId _ =>
      exact deleteComment_inv h quoteId commentId authorId
  | stepDeleteUser userId pinCode _ => exact deleteUser_inv h userId pinCode

theorem initState_inv : Inv initState :=
  ⟨List.Pairwise.nil, List.Pairwise.nil, List.Pairwise.nil,
    fun e he => absurd he (List.not_mem_nil e),
    fun e he => absurd he (List.not_mem_nil e),
    fun e he => absurd he (List.not_mem_nil e), List.Pairwise.nil⟩

theorem reachable_inv {s : State} (h : Reachable s) : Inv s := by
  induction h with
  | init => exact initState_inv
  | step _ hs ih => exact step_inv ih hs

theorem storeValues_sublist {st st' : Store α} (h : st'.Sublist st) :
    ∀ v ∈ storeValues st', v ∈ storeValues st := by
  intro v hv
  exact (h.map Prod.snd).subset hv

theorem pairwise_values_key {f : α → String} {st : Store α} (hnd : keysNodup st)
    (hk : ∀ e ∈ st, e.1 = f e.2) :
    (storeValues st).Pairwise (fun a b => f a ≠ f b) := by
  have h2 : st.Pairwise (fun a b => f a.2 ≠ f b.2) :=
    List.Pairwise.imp_of_mem
      (fun ha hb hne => by rw [← hk _ ha, ← hk _ hb]; exact hne) hnd
  simpa [storeValues, List.pairwise_map] using h2

theorem foldl_deleteComment_removed (quoteId authorId : String) (M : List Comment) :
    ∀ (st : State), keysNodup st.commentStorage → ∀ c ∈ M,
      storeFind c.id
        ((M.foldl (fun acc c => (deleteComment quoteId c.id authorId acc).2) st).commentStorage)
        = none := by
  induction M with
  | nil =>
    intro st _ c hc
    simp at hc
  | cons c0 M ih =>
    intro st hnd c hc
    simp only [List.foldl_cons]
    have hst1c : ((deleteComment quoteId c0.id authorId st).2).commentStorage
        = (storeRemove c0.id st.commentStorage).2 := by
      rw [deleteComment_state]
    have hnd1 : keysNodup ((deleteComment quoteId c0.id authorId st).2).commentStorage := by
      rw [hst1c]
      exact hnd.sublist (storeRemove_sublist _ _)
    rcases List.mem_cons.mp hc with rfl | hc2
    · have h0 : storeFind c.id ((deleteComment quoteId c.id authorId st).2).commentStorage
          = none := by
        rw [hst1c]
        exact storeFind_storeRemove_self hnd
      obtain ⟨-, -, hsub⟩ :=
        foldl_deleteComment_state quoteId authorId M (deleteComment quoteId c.id authorId st).2
      exact storeFind_eq_none_iff.mpr
        (fun e he => storeFind_eq_none_iff.mp h0 e (hsub.subset he))
    · exact ih _ hnd1 c hc2

theorem deleteQuote_success {s : State} (hq : keysNodup s.quoteStorage)
    (hcs : keysNodup s.commentStorage)
    (hkeyc : ∀ e ∈ s.commentStorage, e.1 = e.2.id)
    {q : Quote} (hfind : storeFind q.id s.quoteStorage = some q) {authorId : String}
    (hown : q.authorId = authorId) :
    storeFind q.id ((deleteQuote q.id authorId s).2).quoteStorage = none ∧
    (∀ c ∈ storeValues ((deleteQuote q.id authorId s).2).commentStorage, c.quoteId ≠ q.id) ∧
    (∀ k, k ≠ q.id →
      storeFind k ((deleteQuote q.id authorId s).2).quoteStorage
        = storeFind k s.quoteStorage) := by
  have hmem : q ∈ storeValues s.quoteStorage :=
    mem_storeValues.mpr ⟨q.id, storeFind_some_mem hfind⟩
  simp only [deleteQuote]
  cases hf : (storeValues s.quoteStorage).find?
      (fun x => x.id == q.id && x.authorId == authorId) with
  | none =>
    exact absurd (List.find?_eq_none.mp hf q hmem) (by simp [hown])
  | some q0 =>
    simp only []
    rw [storeRemove_fst, hfind]
    simp only []
    have hremq : storeFind q.id (storeRemove q.id s.quoteStorage).2 = none :=
      storeFind_storeRemove_self hq
    have hremo : ∀ k, k ≠ q.id →
        storeFind k (storeRemove q.id s.quoteStorage).2 = storeFind k s.quoteStorage :=
      fun k hk => storeFind_storeRemove_ne hk _
    split
    · -- there are comments on the quote: the cascade loop runs
      obtain ⟨e1, e2, e3⟩ := foldl_deleteComment_state q.id authorId
        ((storeValues s.commentStorage).filter (fun c => c.quoteId == q.id))
        { s with quoteStorage := (storeRemove q.id s.quoteStorage).2 }
      refine ⟨e1 ▸ hremq, ?_, fun k hk => e1 ▸ hremo k hk⟩
      intro c hcmem hquoteId
      have hentry : ∃ k, (k, c) ∈ s.commentStorage := by
        rcases mem_storeValues.mp hcmem with ⟨k, hkmem⟩
        exact ⟨k, e3.subset hkmem⟩
      rcases hentry with ⟨k, hkmem⟩
      have hkc : k = c.id := hkeyc (k, c) hkmem
      subst hkc
      have hinM : c ∈ (storeValues s.commentStorage).filter (fun c => c.quoteId == q.id) :=
        List.mem_filter.mpr ⟨mem_storeValues.mpr ⟨c.id, hkmem⟩, by simp [hquoteId]⟩
      have hgone := foldl_deleteComment_removed q.id authorId
        ((storeValues s.commentStorage).filter (fun c => c.quoteId == q.id))
        { s with quoteStorage := (storeRemove q.id s.quoteStorage).2 } hcs c hinM
      have hstill : (c.id, c) ∈ (((storeValues s.commentStorage).filter
          (fun c => c.quoteId == q.id)).foldl
            (fun acc c => (deleteComment q.id c.id authorId acc).2)
            { s with quoteStorage := (storeRemove q.id s.quoteStorage).2 }).commentStorage := by
        rcases mem_storeValues.mp hcmem with ⟨k2, hk2⟩
        have : k2 = c.id := hkeyc (k2, c) (e3.subset hk2)
        exact this ▸ hk2
      exact storeFind_eq_none_iff.mp hgone (c.id, c) hstill rfl
    · -- no comments on the quote
      rename_i hlen
      refine ⟨hremq, ?_, hremo⟩
      intro c hcmem hquoteId
      have hempty : (storeValues s.commentStorage).filter (fun c => c.quoteId == q.id) = [] := by
        rcases Decidable.em (((storeValues s.commentStorage).filter
            (fun c => c.quoteId == q.id)).length = 0) with h | h
        · exact List.length_eq_zero.mp h
        · exact absurd h hlen
      have : c ∈ storeValues s.commentStorage := hcmem
      have hfilter := List.filter_eq_nil_iff.mp hempty c this
      simp [hquoteId] at hfilter

theorem foldl_deleteQuote_removed (userId : String) (L : List Quote) :
    ∀ (st : State), Inv st →
    (∀ q ∈ L, storeFind q.id st.quoteStorage = some q ∧ q.authorId = userId) →
    L.Pairwise (fun a b => a.id ≠ b.id) →
    ∀ q ∈ L,
      storeFind q.id
        ((L.foldl (fun acc q => (deleteQuote q.id userId acc).2) st).quoteStorage) = none ∧
      ∀ c ∈ storeValues
          ((L.foldl (fun acc q => (deleteQuote q.id userId acc).2) st).commentStorage),
        c.quoteId ≠ q.id := by
  induction L with
  | nil =>
    intro st _ _ _ q hq
    simp at hq
  | cons q0 L ih =>
    intro st hInv hfind hpw q hq
    simp only [List.foldl_cons]
    obtain ⟨h1, h2, h3, h4, h5, h6, h7⟩ := hInv
    have hInv1 : Inv (deleteQuote q0.id userId st).2 :=
      deleteQuote_inv ⟨h1, h2, h3, h4, h5, h6, h7⟩ q0.id userId
    obtain ⟨hf0, hown0⟩ := hfind q0 (List.mem_cons_self _ _)
    obtain ⟨hA, hB, hC⟩ := deleteQuote_success h1 h3 h6 hf0 hown0
    obtain ⟨hhead, htail⟩ := List.pairwise_cons.mp hpw
    rcases List.mem_cons.mp hq with rfl | hq2
    · obtain ⟨hu, hqsub, hcsub⟩ :=
        foldl_deleteQuote_state userId L (deleteQuote q.id userId st).2
      constructor
      · exact storeFind_eq_none_iff.mpr
          (fun e he => storeFind_eq_none_iff.mp hA e (hqsub.subset he))
      · intro c hcmem
        exact hB c (storeValues_sublist hcsub c hcmem)
    · refine ih (deleteQuote q0.id userId st).2 hInv1 ?_ htail q hq2
      intro q2 hq2mem
      obtain ⟨hf2, hown2⟩ := hfind q2 (List.mem_cons_of_mem _ hq2mem)
      refine ⟨?_, hown2⟩
      rw [hC q2.id (Ne.symm (hhead q2 hq2mem)), hf2]

/-- C1: after `deleteUser(id, pin)` succeeds, no quote with `authorId == id`
remains in the quote store, and no comment referring to any quote that had
`authorId == id` remains in the comment store (cascade completeness,
including comments authored by other users). Stated over every well-formed
state (the invariant `Inv` holds in every reachable state). -/
theorem deleteUser_cascade_complete (s : State) (hInv : Inv s) (userId pinCode : String)
    (u : User) (h : (deleteUser userId pinCode s).1 = Except.ok u) :
    (∀ q ∈ storeValues ((deleteUser userId pinCode s).2).quoteStorage,
      q.authorId ≠ userId) ∧
    (∀ q ∈ storeValues s.quoteStorage, q.authorId = userId →
      ∀ c ∈ storeValues ((deleteUser userId pinCode s).2).commentStorage,
        c.quoteId ≠ q.id) := by
  obtain ⟨h1, h2, h3, h4, h5, h6, h7⟩ := hInv
  simp only [deleteUser] at h ⊢
  cases hf : (storeValues s.userStorage).find? (fun x => x.id == userId) with
  | none => simp [hf] at h
  | some userById =>
    simp only [hf] at h ⊢
    by_cases hpin : userById.pinCode ≠ pinCode
    · simp [hpin] at h
    · simp only [if_neg hpin] at h ⊢
      cases hr : (storeRemove (userId ++ pinCode) s.userStorage).1 with
      | none => simp [hr] at h
      | some userToDelete =>
        simp only [hr] at h ⊢
        -- the state after removing the user record
        set s1 : State := { s with userStorage := (storeRemove (userId ++ pinCode) s.userStorage).2 }
          with hs1
        have hInv1 : Inv s1 :=
          inv_of_sublists ⟨h1, h2, h3, h4, h5, h6, h7⟩ (List.Sublist.refl _)
            (storeRemove_sublist _ _) (List.Sublist.refl _)
        set L : List Quote := (storeValues s.quoteStorage).filter (fun q => q.authorId == userId)
          with hL
        have hs1q : s1.quoteStorage = s.quoteStorage := rfl
        have hLfind : ∀ q ∈ L, storeFind q.id s1.quoteStorage = some q ∧ q.authorId = userId := by
          intro q hqL
          obtain ⟨hqmem, hqpred⟩ := List.mem_filter.mp hqL
          have hauth : q.authorId = userId := by simpa using hqpred
          rcases mem_storeValues.mp hqmem with ⟨k, hk⟩
          have hkid : k = q.id := h4 (k, q) hk
          subst hkid
          exact ⟨storeFind_of_mem h1 hk, hauth⟩
        have hLpw : L.Pairwise (fun a b : Quote => a.id ≠ b.id) :=
          (pairwise_values_key h1 h4).filter _
        have hrem := foldl_deleteQuote_removed userId L s1 hInv1 hLfind hLpw
        obtain ⟨hu2, hqsub2, hcsub2⟩ := foldl_deleteQuote_state userId L s1
        -- whether the filter is empty or not, the final state is the fold over L from s1
        have hfold :
            (if L.length ≠ 0 then L.foldl (fun acc q => (deleteQuote q.id userId acc).2) s1
              else s1)
            = L.foldl (fun acc q => (deleteQuote q.id userId acc).2) s1 := by
          by_cases hlen : L.length ≠ 0
          · rw [if_pos hlen]
          · rw [if_neg hlen]
            have : L = [] := List.length_eq_zero.mp (not_ne_iff.mp hlen)
            rw [this, List.foldl_nil]
        rw [hfold]
        constructor
        · intro q hqmem2 hqauth
          have hqmem : q ∈ storeValues s.quoteStorage :=
            storeValues_sublist (hs1q ▸ hqsub2) q hqmem2
          have hqL : q ∈ L := List.mem_filter.mpr ⟨hqmem, by simp [hqauth]⟩
          obtain ⟨hgone, -⟩ := hrem q hqL
          rcases mem_storeValues.mp hqmem2 with ⟨k, hk⟩
          have hkid : k = q.id := h4 (k, q) ((hs1q ▸ hqsub2).subset hk)
          subst hkid
          exact storeFind_eq_none_iff.mp hgone (q.id, q) hk rfl
        · intro q hqmem hqauth c hcmem
          have hqL : q ∈ L := List.mem_filter.mpr ⟨hqmem, by simp [hqauth]⟩
          obtain ⟨-, hcomments⟩ := hrem q hqL
          exact hcomments c hcmem

/-- Concrete fixture: a user "alice". -/
def wAlice : User := ⟨"u1", "alice", "1111", 0, none⟩

/-- Concrete fixture: a user "bob". -/
def wBob : User := ⟨"u2", "bob", "2222", 1, none⟩

/-- Concrete fixture: a quote authored by alice. -/
def wQuote1 : Quote := ⟨"q1", "u1", "alice", "hello", 2, none⟩

/-- Concrete fixture: bob's comment on alice's quote. -/
def wComment1 : Comment := ⟨"c1", "u2", "bob", "q1", "nice", 3, none⟩

/-- Concrete fixture: alice's comment on her own quote. -/
def wComment2 : Comment := ⟨"c2", "u1", "alice", "q1", "thx", 4, none⟩

/-- Concrete fixture state: two users, one quote, two comments. -/
def wState : State :=
  ⟨[("q1", wQuote1)], [("u11111", wAlice), ("u22222", wBob)],
    [("c1", wComment1), ("c2", wComment2)]⟩

/-- Concrete fixture: the comment created by `addComment` on a nonexistent
quote id "qZ". -/
def cexComment : Comment := ⟨"c9", "u1", "alice", "qZ", "hi", 7, none⟩

/-- Concrete fixture: the state after one `newUser` call on a fresh canister. -/
def rState1 : State := (newUser "u1" 0 ⟨"alice", "1111"⟩ initState).2

theorem rState1_reachable : Reachable rState1 :=
  Reachable.step Reachable.init (Step.stepNewUser "u1" 0 ⟨"alice", "1111"⟩ initState)

/-- C2 counterexample: `addComment` does not check that the quote exists.
On a state whose quote store has no quote "qZ", an `addComment` naming
`quoteId = "qZ"` (with a valid author) succeeds and creates the comment
record, contradicting the claim that it fails with `UnknownQuote`. -/
theorem addComment_no_quote_check_cex :
    storeFind "qZ" wState.quoteStorage = none ∧
    (addComment "c9" 7 ⟨"u1", "qZ", "hi"⟩ wState).1 = Except.ok cexComment ∧
    ("c9", cexComment) ∈ ((addComment "c9" 7 ⟨"u1", "qZ", "hi"⟩ wState).2).commentStorage := by
  decide

/-- C2 (amended): `addComment` validates only the author id. Whenever
`authorId` resolves to a stored user, the call succeeds and inserts the
comment record regardless of whether `quoteId` exists in the quote
collection; no quote-existence check is performed. -/
theorem addComment_author_only_validation (fid : String) (now : Nat) (p : NewCommentPayload)
    (s : State) (u : User)
    (hu : (storeValues s.userStorage).find? (fun x => x.id == p.authorId) = some u) :
    addComment fid now p s =
      (Except.ok ⟨fid, p.authorId, u.name, p.quoteId, p.comment, now, none⟩,
        { s with
            commentStorage :=
              storeInsert fid ⟨fid, p.authorId, u.name, p.quoteId, p.comment, now, none⟩
                s.commentStorage }) := by
  simp only [addComment, validateCommentInput, hu]

/-- C2 witness: the amended theorem applied at a concrete input whose
`quoteId` ("qZ") is absent from the quote store. -/
theorem addComment_author_only_validation_witness :
    addComment "c9" 7 ⟨"u1", "qZ", "hi"⟩ wState
      = (Except.ok cexComment,
        { wState with commentStorage := storeInsert "c9" cexComment wState.commentStorage }) :=
  addComment_author_only_validation "c9" 7 ⟨"u1", "qZ", "hi"⟩ wState wAlice (by decide)

/-- C3: `deleteComment` removes the record by id before validating. For a
stored comment, a call whose `quoteId` or `authorId` does not match returns
the mismatch (respectively unauthorized) error, yet the comment is gone
from the comment store afterwards. -/
theorem deleteComment_remove_then_validate (s : State) (hInv : Inv s) (c : Comment)
    (hc : c ∈ storeValues s.commentStorage) (quoteId authorId : String)
    (hmm : c.quoteId ≠ quoteId ∨ c.authorId ≠ authorId) :
    (deleteComment quoteId c.id authorId s).1 =
      (if c.quoteId ≠ quoteId then
        Except.error "This comment is not on the given quote."
       else Except.error "Unable to delete the comment, you are not the author.") ∧
    storeFind c.id ((deleteComment quoteId c.id authorId s).2).commentStorage = none ∧
    c ∉ storeValues ((deleteComment quoteId c.id authorId s).2).commentStorage := by
  obtain ⟨h1, h2, h3, h4, h5, h6, h7⟩ := hInv
  rcases mem_storeValues.mp hc with ⟨k, hk⟩
  have hkey : k = c.id := h6 (k, c) hk
  subst hkey
  have hfind : storeFind c.id s.commentStorage = some c := storeFind_of_mem h3 hk
  have hgone : storeFind c.id (storeRemove c.id s.commentStorage).2 = none :=
    storeFind_storeRemove_self h3
  have hnotin : c ∉ storeValues (storeRemove c.id s.commentStorage).2 := by
    intro hmem
    rcases mem_storeValues.mp hmem with ⟨k2, hk2⟩
    have hk2c : k2 = c.id := h6 (k2, c) ((storeRemove_sublist _ _).subset hk2)
    subst hk2c
    exact storeFind_eq_none_iff.mp hgone (c.id, c) hk2 rfl
  simp only [deleteComment, storeRemove_fst, hfind]
  by_cases hq : c.quoteId ≠ quoteId
  · rw [if_pos hq, if_pos hq]
    exact ⟨rfl, hgone, hnotin⟩
  · rw [if_neg hq, if_neg hq]
    have hauth : c.authorId ≠ authorId := hmm.resolve_left hq
    rw [if_pos hauth]
    exact ⟨rfl, hgone, hnotin⟩

/-- C3 witness: deleting bob's comment "c1" under a wrong quote id returns
the mismatch error, yet the comment is removed from the store. -/
theorem deleteComment_remove_then_validate_witness :
    (deleteComment "qWRONG" "c1" "u2" wState).1
      = Except.error "This comment is not on the given quote." ∧
    storeFind "c1" ((deleteComment "qWRONG" "c1" "u2" wState).2).commentStorage = none ∧
    wComment1 ∉ storeValues ((deleteComment "qWRONG" "c1" "u2" wState).2).commentStorage := by
  obtain ⟨ha, hb, hc⟩ := deleteComment_remove_then_validate wState (by decide) wComment1
    (by decide) "qWRONG" "u2" (Or.inl (by decide))
  exact ⟨ha.trans (by decide), hb, hc⟩

/-- C4: in every reachable state, distinct users have distinct names, and
`newUser` rejects a duplicate name (case-sensitive comparison) with the
duplicate-name error. (No other operation writes a user's name: the
invariant holds after every update call.) -/
theorem user_names_unique (s : State) (hs : Reachable s) :
    (∀ u1 ∈ storeValues s.userStorage, ∀ u2 ∈ storeValues s.userStorage,
      u1.id ≠ u2.id → u1.name ≠ u2.name) ∧
    (∀ (fid : String) (now : Nat) (p : NewUserPayload), p.name ≠ "" → p.pinCode ≠ "" →
      (∃ u ∈ storeValues s.userStorage, u.name = p.name) →
      (newUser fid now p s).1 = Except.error "Sorry, this name is already in use...") := by
  obtain ⟨h1, h2, h3, h4, h5, h6, h7⟩ := reachable_inv hs
  constructor
  · intro u1 hu1 u2 hu2 hid
    exact List.Pairwise.forall (fun x y h => Ne.symm h) h7 hu1 hu2
      (fun he => hid (he ▸ rfl))
  · intro fid now p hn hp hex
    obtain ⟨u, hu, hname⟩ := hex
    have hval : validateUserInput p = Except.ok () := by
      simp [validateUserInput, hn, hp]
    simp only [newUser, hval]
    cases hf : (storeValues s.userStorage).find? (fun x => x.name == p.name) with
    | some x => rfl
    | none =>
      have h9 := List.find?_eq_none.mp hf u hu
      simp [hname] at h9

/-- C4 witness: with alice stored, creating another user named "alice"
fails with the duplicate-name error. -/
theorem user_names_unique_witness :
    (newUser "u9" 1 ⟨"alice", "2222"⟩ rState1).1
      = Except.error "Sorry, this name is already in use..." :=
  (user_names_unique rState1 rState1_reachable).2 "u9" 1 ⟨"alice", "2222"⟩
    (by decide) (by decide) ⟨⟨"u1", "alice", "1111", 0, none⟩, by decide, rfl⟩

/-- C5: `deleteQuote` on a stored quote with a non-matching author id
returns the ownership error and leaves the whole state (in particular the
record for that quote id) unchanged. -/
theorem deleteQuote_nonowner_rejected (s : State) (hInv : Inv s) (q : Quote)
    (hq : q ∈ storeValues s.quoteStorage) (a : String) (ha : a ≠ q.authorId) :
    deleteQuote q.id a s
      = (Except.error "You cannot delete the quote because you are not the owner.", s) := by
  obtain ⟨h1, h2, h3, h4, h5, h6, h7⟩ := hInv
  have hfq : storeFind q.id s.quoteStorage = some q := by
    rcases mem_storeValues.mp hq with ⟨k, hk⟩
    have hkq : k = q.id := h4 (k, q) hk
    exact hkq ▸ storeFind_of_mem h1 hk
  have hnone : (storeValues s.quoteStorage).find?
      (fun x => x.id == q.id && x.authorId == a) = none := by
    rw [List.find?_eq_none]
    intro x hx
    simp only [Bool.and_eq_true, beq_iff_eq, not_and]
    intro hxid hxa
    rcases mem_storeValues.mp hx with ⟨k, hk⟩
    have hkx : k = x.id := h4 (k, x) hk
    subst hkx
    have hfx : storeFind x.id s.quoteStorage = some x := storeFind_of_mem h1 hk
    rw [hxid, hfq] at hfx
    have hqx : q = x := by injection hfx
    exact ha (by rw [hqx, hxa])
  simp only [deleteQuote, hnone]

/-- C5 witness: bob cannot delete alice's quote, and the state is
untouched. -/
theorem deleteQuote_nonowner_rejected_witness :
    deleteQuote "q1" "u2" wState
      = (Except.error "You cannot delete the quote because you are not the owner.", wState) :=
  deleteQuote_nonowner_rejected wState (by decide) wQuote1 (by decide) "u2" (by decide)

/-- C6: `newQuote` with an author id absent from the user collection
returns the unknown-author error and leaves the state (in particular the
quote store) unchanged. -/
theorem newQuote_unknown_author (fid : String) (now : Nat) (p : NewQuotePayload) (s : State)
    (h : ∀ u ∈ storeValues s.userStorage, u.id ≠ p.authorId) :
    newQuote fid now p s = (Except.error "Author with given ID not found.", s) := by
  have hnone : (storeValues s.userStorage).find? (fun u => u.id == p.authorId) = none := by
    rw [List.find?_eq_none]
    intro u hu
    simp [h u hu]
  simp only [newQuote, validateQuoteInput, hnone]

/-- C6 witness: a quote naming the unknown author "uZ" is rejected and
nothing is stored. -/
theorem newQuote_unknown_author_witness :
    newQuote "q9" 9 ⟨"uZ", "yo"⟩ wState
      = (Except.error "Author with given ID not found.", wState) :=
  newQuote_unknown_author "q9" 9 ⟨"uZ", "yo"⟩ wState (by decide)

/-- C7: `getAllQuotes` returns the empty-store error when zero quotes are
stored (never an empty success list), and otherwise the `QuoteToDisplay`
projection of every stored quote. -/
theorem getAllQuotes_empty_is_error (s : State) :
    getAllQuotes s =
      if storeValues s.quoteStorage = [] then
        Except.error "At the moment there is no quote..."
      else Except.ok ((storeValues s.quoteStorage).map
        (fun q => { id := q.id, quote := q.quote, author := q.author })) := by
  simp only [getAllQuotes]
  by_cases h : storeValues s.quoteStorage = []
  · rw [if_pos h, if_pos (by rw [h]; rfl)]
  · rw [if_neg h, if_neg (fun hlen => h (List.length_eq_zero.mp hlen))]

/-- C8: `getQuoteComments` fails with the unknown-quote error whenever no
stored quote carries the requested id (regardless of any comments naming
that id), and fails with the no-comments error whenever the quote exists
but no comment references it; the quote-existence check comes first. -/
theorem getQuoteComments_check_order (quoteId : String) (s : State) :
    getQuoteComments quoteId s =
      if ∀ q ∈ storeValues s.quoteStorage, q.id ≠ quoteId then
        Except.error "No quote found with the given ID."
      else if (storeValues s.commentStorage).filter (fun c => c.quoteId == quoteId) = [] then
        Except.error "No comments found for this quote."
      else Except.ok (((storeValues s.commentStorage).filter
        (fun c => c.quoteId == quoteId)).map
          (fun c => { comment := c.comment, author := c.authorName })) := by
  simp only [getQuoteComments]
  cases hf : (storeValues s.quoteStorage).find? (fun q => q.id == quoteId) with
  | none =>
    have hall : ∀ q ∈ storeValues s.quoteStorage, q.id ≠ quoteId := by
      intro q hq
      have h9 := List.find?_eq_none.mp hf q hq
      simpa using h9
    rw [if_pos hall]
  | some q0 =>
    have hnall : ¬(∀ q ∈ storeValues s.quoteStorage, q.id ≠ quoteId) := by
      intro hall
      exact hall q0 (List.mem_of_find?_eq_some hf) (by simpa using List.find?_some hf)
    rw [if_neg hnall]
    by_cases hemp : (storeValues s.commentStorage).filter (fun c => c.quoteId == quoteId) = []
    · rw [if_pos hemp, if_pos (by rw [hemp]; rfl)]
    · rw [if_neg hemp, if_neg (fun hlen => hemp (List.length_eq_zero.mp hlen))]

/-- C9: after a successful `newUser`, an immediate `getMyUserData` with the
same credentials returns the very same user record (identical id, which is
the fresh id given to `newUser`). -/
theorem newUser_getMyUserData_roundtrip (fid : String) (now : Nat) (p : NewUserPayload)
    (s : State) (u : User) (h : (newUser fid now p s).1 = Except.ok u) :
    getMyUserData p (newUser fid now p s).2 = Except.ok u ∧ u.id = fid := by
  cases hv : validateUserInput p with
  | error e =>
    simp only [newUser, hv] at h
    exact absurd h (by simp)
  | ok _ =>
    cases hf : (storeValues s.userStorage).find? (fun x => x.name == p.name) with
    | some x =>
      simp only [newUser, hv, hf] at h
      exact absurd h (by simp)
    | none =>
      simp only [newUser, hv, hf] at h ⊢
      have hu : u = ⟨fid, p.name, p.pinCode, now, none⟩ := by
        simp only [Except.ok.injEq] at h
        exact h.symm
      subst hu
      refine ⟨?_, rfl⟩
      simp only [getMyUserData]
      have hold : ∀ x ∈ storeValues s.userStorage,
          (x.name == p.name && x.pinCode == p.pinCode) = false := by
        intro x hx
        have h9 := List.find?_eq_none.mp hf x hx
        simp only [beq_iff_eq] at h9 ⊢
        simp only [Bool.and_eq_false_iff]
        left
        simpa using h9
      rw [find?_values_insert hold (by simp)]

/-- C9 witness: creating alice on a fresh canister and reading back with
her credentials yields the same record with the same id. -/
theorem newUser_getMyUserData_roundtrip_witness :
    getMyUserData ⟨"alice", "1111"⟩ (newUser "u1" 0 ⟨"alice", "1111"⟩ initState).2
      = Except.ok wAlice ∧ wAlice.id = "u1" :=
  newUser_getMyUserData_roundtrip "u1" 0 ⟨"alice", "1111"⟩ initState wAlice (by decide)

/-- C10: in every reachable state each user record is stored under the
composite key `id ++ pinCode`, so a user found by id whose pinCode matches
is actually removed by `deleteUser` (the removal at `userId ++ pinCode`
hits that user's binding). -/
theorem userStorage_composite_key (s : State) (hs : Reachable s) :
    (∀ e ∈ s.userStorage, e.1 = e.2.id ++ e.2.pinCode) ∧
    (∀ (userId pinCode : String) (u : User),
      (storeValues s.userStorage).find? (fun x => x.id == userId) = some u →
      u.pinCode = pinCode →
      (deleteUser userId pinCode s).1 = Except.ok u ∧
      storeFind (userId ++ pinCode) ((deleteUser userId pinCode s).2).userStorage = none) := by
  obtain ⟨h1, h2, h3, h4, h5, h6, h7⟩ := reachable_inv hs
  refine ⟨h5, ?_⟩
  intro userId pinCode u hfind hpin
  have hmem : u ∈ storeValues s.userStorage := List.mem_of_find?_eq_some hfind
  have hid : u.id = userId := by simpa using List.find?_some hfind
  rcases mem_storeValues.mp hmem with ⟨k, hk⟩
  have hkey : k = u.id ++ u.pinCode := h5 (k, u) hk
  have hremfst : storeFind (userId ++ pinCode) s.userStorage = some u := by
    rw [← hid, ← hpin, ← hkey]
    exact storeFind_of_mem h2 hk
  simp only [deleteUser, hfind]
  rw [if_neg (by simp [hpin])]
  rw [storeRemove_fst, hremfst]
  simp only []
  constructor
  · trivial
  · split
    · obtain ⟨hu2, -, -⟩ := foldl_deleteQuote_state userId
        ((storeValues s.quoteStorage).filter (fun q => q.authorId == userId))
        { s with userStorage := (storeRemove (userId ++ pinCode) s.userStorage).2 }
      rw [hu2]
      exact storeFind_storeRemove_self h2
    · exact storeFind_storeRemove_self h2

/-- C10 witness: with alice stored under key "u11111", `deleteUser` with
her id and pin returns her record and removes the binding. -/
theorem userStorage_composite_key_witness :
    (deleteUser "u1" "1111" rState1).1 = Except.ok ⟨"u1", "alice", "1111", 0, none⟩ ∧
    storeFind ("u1" ++ "1111") ((deleteUser "u1" "1111" rState1).2).userStorage = none :=
  (userStorage_composite_key rState1 rState1_reachable).2 "u1" "1111"
    ⟨"u1", "alice", "1111", 0, none⟩ (by decide) rfl

/-- C1 witness: deleting alice cascades: her quote "q1" is no longer in the
quote store afterwards. -/
theorem deleteUser_cascade_complete_witness :
    wQuote1 ∉ storeValues ((deleteUser "u1" "1111" wState).2).quoteStorage := by
  intro hmem
  exact (deleteUser_cascade_complete wState (by decide) "u1" "1111" wAlice (by decide)).1
    wQuote1 hmem rfl

end QuotesApp
